import Mathlib

/-!
Shallow embedding of the `wpm-rust` typing trainer (`src/main.rs`).

Strings are modelled as `List Char` (the code only ever compares and counts
characters; for the concrete inputs used here, Rust byte lengths and char
counts coincide). Panics (`expect`, out-of-bounds `Vec` indexing) are
modelled by `Option`: `none` means the process aborts. Wall-clock readings
are abstract `Nat` values threaded explicitly; the random pick of
`valid_quotes.choose(&mut rng)` is modelled by an injected `choice : Nat`
used modulo the list length. `f32` arithmetic in `get_wpm` is modelled by
exact rationals.
-/

namespace WpmRust

/-- `const MAX_LENGTH_PER_LINE: usize = 50` (main.rs line 33). -/
def MAX_LENGTH_PER_LINE : Nat := 50

/-- `struct Quote` (main.rs lines 18-24). `length` is corpus-supplied, not
recomputed from `text`. -/
structure Quote where
  text : List Char
  source : List Char
  length : Nat
  id : Nat
deriving DecidableEq, Repr

/-- `struct EnglishData` (main.rs lines 26-31). -/
structure EnglishData where
  language : List Char
  groups : List (Nat × Nat)
  quotes : List Quote
deriving DecidableEq, Repr

/-- `struct App` (main.rs lines 67-86). `start` and the timestamp inside
`done` are abstract clock readings. -/
structure App where
  start : Nat
  correct : Nat
  incorrect : Nat
  words : Nat
  current_line : Nat
  selected_group : Nat
  groups : List (Nat × Nat)
  sentence : List (List Char)
  sentence_source : List Char
  typed : List (List Char)
  typing : List Char
  exit : Bool
  done : Option Nat
deriving DecidableEq, Repr

/-- The key codes the app reacts to (crossterm `KeyCode`, main.rs line 127). -/
inductive KeyCode where
  | esc
  | left
  | right
  | tab
  | backspace
  | char (c : Char)
  | other
deriving DecidableEq, Repr

/-- Rust `text.split(" ")`: split on every single space, keeping empty
pieces; the result is always nonempty. -/
def splitOnSpace : List Char → List (List Char)
  | [] => [[]]
  | c :: cs =>
    if c = ' ' then [] :: splitOnSpace cs
    else
      match splitOnSpace cs with
      | [] => [[c]]
      | w :: ws => (c :: w) :: ws

/-- One iteration of the word-wrap loop of `App::new_quote` (main.rs lines
244-255), acting on the reversed list of lines built so far: merge the word
into the last line when it fits in `MAX_LENGTH_PER_LINE`, else start a new
line. -/
def pushWordRev (rev : List (List Char)) (word : List Char) : List (List Char) :=
  match rev with
  | [] => [word]
  | l :: rest =>
    if l.length + 1 + word.length > MAX_LENGTH_PER_LINE then word :: l :: rest
    else (l ++ ' ' :: word) :: rest

/-- The trailing-space loop of `App::new_quote` (main.rs lines 257-259):
append one space to every line except the last. -/
def appendTrailing : List (List Char) → List (List Char)
  | [] => []
  | [l] => [l]
  | l :: l2 :: rest => (l ++ [' ']) :: appendTrailing (l2 :: rest)

/-- The complete line wrapper of `App::new_quote` (main.rs lines 244-259). -/
def wrap (text : List Char) : List (List Char) :=
  appendTrailing (((splitOnSpace text).foldl pushWordRev []).reverse)

/-- The filter of `App::new_quote` (main.rs lines 231-235):
`group[0] < q.length && q.length < group[1]`, strict on both ends. -/
def validQuotes (data : EnglishData) (group : Nat × Nat) : List Quote :=
  data.quotes.filter (fun q => group.1 < q.length && q.length < group.2)

/-- The clamp of `App::new_quote` (main.rs lines 226-228): reset the group
index to `0` only when it is strictly greater than `groups.len()`. -/
def clampGroup (data : EnglishData) (g : Nat) : Nat :=
  if g > data.groups.length then 0 else g

/-- Quote selection of `App::new_quote` (main.rs lines 230-239): index into
`groups` (an out-of-range index panics, modelled `none`), filter, then
`choose`; `expect` on an empty filter result panics (`none`). The random
draw is the injected `choice` taken modulo the number of survivors. -/
def selectQuote (data : EnglishData) (gidx choice : Nat) : Option Quote :=
  match data.groups.get? gidx with
  | none => none
  | some group =>
    let valid := validQuotes data group
    valid.get? (choice % valid.length)

/-- `App::new_quote` (main.rs lines 219-260): store the group list, clamp
the selected index, pick a quote, wrap its text. -/
def newQuote (data : EnglishData) (choice : Nat) (app : App) : Option App :=
  match selectQuote data (clampGroup data app.selected_group) choice with
  | none => none
  | some picked =>
    some { app with
      groups := data.groups
      selected_group := clampGroup data app.selected_group
      sentence_source := picked.source
      sentence := wrap picked.text }

/-- `App::count_mistakes` (main.rs lines 111-124), correct half: the number
of positions `i < typing.len()` where `typing[i]` equals
`sentence[current_line].chars().nth(i).unwrap_or(' ')`. -/
def countCorrect (typing part : List Char) : Nat :=
  (List.range typing.length).countP (fun i => typing.getD i ' ' == part.getD i ' ')

/-- The tail of the `KeyCode::Char` branch (main.rs lines 192-205): push the
character, and when the line is complete, tally mistakes, commit the typed
line, advance `current_line`, and set `done` when past the last line. -/
def pushChar (now : Nat) (app : App) (part : List Char) (c : Char) : App :=
  let t := app.typing ++ [c]
  if part.length = t.length then
    let corr := countCorrect t part
    let a := { app with
      correct := app.correct + corr
      incorrect := app.incorrect + (t.length - corr)
      typed := app.typed ++ [t]
      typing := ([] : List Char)
      current_line := app.current_line + 1 }
    if a.current_line + 1 > a.sentence.length then { a with done := some now } else a
  else { app with typing := t }

/-- The `KeyCode::Char` branch after the `start` reset (main.rs lines
179-205): `self.sentence[self.current_line]` panics when `current_line` is
out of range (`none`); whitespace is rejected unless a space is expected
(and counted in `words` when accepted); non-whitespace is rejected when a
space is expected; otherwise the character is pushed. -/
def charStepCore (now : Nat) (app : App) (c : Char) : Option App :=
  match app.sentence.get? app.current_line with
  | none => none
  | some part =>
    if c.isWhitespace ∧ part.get? app.typing.length ≠ some ' ' then some app
    else
      let appW := if c.isWhitespace then { app with words := app.words + 1 } else app
      if ¬ c.isWhitespace ∧ part.get? appW.typing.length = some ' ' then some appW
      else some (pushChar now appW part c)

/-- The `KeyCode::Char` branch (main.rs lines 174-206): reset `start` on the
first keystroke of an attempt, then proceed. -/
def charStep (now : Nat) (app : App) (c : Char) : Option App :=
  charStepCore now
    (if app.typing.length = 0 ∧ app.current_line = 0 then { app with start := now } else app) c

/-- `App::handle_key_event` (main.rs lines 126-217). `none` models a panic. -/
def handleKeyEvent (data : EnglishData) (choice now : Nat) (app : App) :
    KeyCode → Option App
  | .esc => some { app with exit := true }
  | .left =>
    if app.typing.length ≠ 0 ∨ app.current_line ≠ 0 then some app
    else
      newQuote data choice
        { app with
          selected_group :=
            if app.selected_group = 0 then app.groups.length - 1
            else app.selected_group - 1 }
  | .right =>
    if app.typing.length ≠ 0 ∨ app.current_line ≠ 0 then some app
    else
      newQuote data choice
        { app with
          selected_group :=
            if app.selected_group + 1 ≥ app.groups.length then 0
            else app.selected_group + 1 }
  | .tab =>
    if app.typing.length = 0 ∧ app.current_line = 0 then newQuote data choice app
    else if app.done.isSome then
      newQuote data choice
        { app with
          correct := 0
          incorrect := 0
          words := 0
          current_line := 0
          typing := ([] : List Char)
          typed := ([] : List (List Char))
          done := none }
    else some app
  | .char c => charStep now app c
  | .backspace =>
    match app.typing.getLast? with
    | none => some app
    | some ch =>
      some { app with
        typing := app.typing.dropLast
        words := if ch.isWhitespace then app.words - 1 else app.words }
  | .other => some app

/-- The `App` literal built in `main` (main.rs lines 39-57). -/
def initApp (now : Nat) : App where
  start := now
  correct := 0
  incorrect := 0
  words := 0
  current_line := 0
  selected_group := 0
  groups := []
  sentence := []
  sentence_source := "loading quote...".toList
  typed := []
  typing := []
  exit := false
  done := none

/-- The `minutes` computation of `get_wpm` (main.rs lines 500-506), over
exact rationals: a negative or zero elapsed time is clamped to `0` by
`duration_since(..).unwrap_or(ZERO)`, and the divisor is replaced by `0.01`
only when it is exactly zero. -/
def getWpmMinutes (s e : ℚ) : ℚ :=
  let secs := max 0 (e - s)
  let m := secs / 60
  if m = 0 then 1 / 100 else m

/-- The WPM value of `get_wpm` (main.rs line 508). -/
def getWpm (words : Nat) (s e : ℚ) : ℚ :=
  (words : ℚ) / getWpmMinutes s e

/-! ### Concrete corpora and sessions used in witnesses and counterexamples -/

/-- A short quote matching the length group `(0, 100)`. -/
def q1 : Quote := { text := ['a', 'b'], source := ['s', '1'], length := 2, id := 1 }

/-- A quote whose corpus-supplied length `150` matches the group `(100, 200)`. -/
def q2 : Quote := { text := ['c', 'd'], source := ['s', '2'], length := 150, id := 2 }

/-- A two-group corpus in which both groups have a matching quote. -/
def data1 : EnglishData :=
  { language := ['e', 'n'], groups := [(0, 100), (100, 200)], quotes := [q1, q2] }

/-- A corpus whose single group `(0, 5)` excludes its only quote (length 150). -/
def dataEmpty : EnglishData :=
  { language := ['e', 'n'], groups := [(0, 5)], quotes := [q2] }

/-- A session that has just finished the one-line quote `"ab"`:
`current_line = sentence.len()` and `done` is set. -/
def appC1 : App where
  start := 1
  correct := 2
  incorrect := 0
  words := 0
  current_line := 1
  selected_group := 0
  groups := [(0, 100), (100, 200)]
  sentence := [['a', 'b']]
  sentence_source := ['s', '1']
  typed := [['a', 'b']]
  typing := []
  exit := false
  done := some 5

/-- A finished session carrying nonzero counters (`words = 2`). -/
def appDoneW : App where
  start := 1
  correct := 1
  incorrect := 1
  words := 2
  current_line := 1
  selected_group := 0
  groups := [(0, 100), (100, 200)]
  sentence := [['a', 'b']]
  sentence_source := ['s', '1']
  typed := [['a', 'b']]
  typing := []
  exit := false
  done := some 5

/-- Input for the line-width counterexample: a 50-character word followed by
`" b"`; every word is within `MAX_LENGTH_PER_LINE`. -/
def textC5 : List Char := List.replicate 50 'a' ++ ' ' :: ['b']

/-! ### Claim theorems: code bugs and counterexamples -/

/-- Claim C1: in the `Done` state (`done` set, `current_line = sentence.len()`),
a `Character` event is claimed to leave the session unchanged with no
index-out-of-range access. The code has no `Done` guard in the `Char` branch
and evaluates `self.sentence[self.current_line]` at index `sentence.len()`,
which panics — modelled here by the step returning `none`. -/
theorem char_after_done_panics :
    appC1.done.isSome = true ∧
    appC1.current_line = appC1.sentence.length ∧
    handleKeyEvent data1 0 7 appC1 (KeyCode.char 'x') = none :=
  ⟨rfl, rfl, rfl⟩

/-- Claim C2: when a group's bounds exclude every quote in the corpus, the
claim requires a recoverable `EmptySelection` condition surfaced to the
caller. The code instead calls `.expect("Could not pick a quote")`, aborting
the process — modelled here by `newQuote` returning `none` (the panic). -/
theorem empty_selection_panics :
    validQuotes dataEmpty (0, 5) = [] ∧
    newQuote dataEmpty 0 (initApp 0) = none :=
  ⟨rfl, rfl⟩

/-- Claim C4: an index equal to `groups.len()` is claimed to be clamped to
`0`. The code clamps only indices strictly greater than `groups.len()`
(`if self.selected_group > data.groups.len()`), so index `2` on a two-group
corpus survives the clamp and the subsequent `data.groups[2]` panics
(`none`), while index `3` is clamped and selection succeeds. -/
theorem clamp_off_by_one :
    data1.groups.length = 2 ∧
    newQuote data1 0 { initApp 0 with selected_group := 2 } = none ∧
    (newQuote data1 0 { initApp 0 with selected_group := 3 }).isSome = true :=
  ⟨rfl, rfl, rfl⟩

/-- Claim C3, counterexample: the claim states the divisor is
`max(0.01, secs / 60)`, never below `0.01`. For an elapsed time of `0.06`
seconds the code's divisor is `0.001` (only an exactly-zero divisor is
replaced by `0.01`), so the computed WPM (1000) differs from the claimed
formula's value (100). -/
theorem wpm_floor_counterexample :
    getWpm 1 0 (6 / 100) ≠ (1 : ℚ) / max (1 / 100) (max 0 ((6 / 100 : ℚ) - 0) / 60) := by
  norm_num [getWpm, getWpmMinutes]

/-- Claim C3, amended: `wpm(w, start, end) = w / minutes` where
`minutes = (end - start).as_seconds / 60` when that value is nonzero, and
`0.01` only when it is exactly zero; for small positive elapsed times the
divisor is below `0.01`. -/
theorem getWpm_characterization (w : Nat) (s e : ℚ) (h : s ≤ e) :
    (e - s = 0 → getWpm w s e = w * 100) ∧
    (e - s ≠ 0 → getWpm w s e = w * 60 / (e - s)) := by
  have hse : max 0 (e - s) = e - s := max_eq_right (by linarith)
  constructor
  · intro h0
    simp only [getWpm, getWpmMinutes, hse, h0]
    norm_num
    rw [div_div_eq_mul_div, div_one]
  · intro h0
    have h60 : (e - s) / 60 ≠ 0 := div_ne_zero h0 (by norm_num)
    simp only [getWpm, getWpmMinutes, hse, if_neg h60]
    rw [div_div_eq_mul_div]

/-- Witness for `getWpm_characterization` at `w = 2`, `s = 0`, `e = 30`. -/
theorem getWpm_characterization_witness :
    (0 : ℚ) ≤ 30 ∧
    (((30 : ℚ) - 0 = 0 → getWpm 2 0 30 = 2 * 100) ∧
      ((30 : ℚ) - 0 ≠ 0 → getWpm 2 0 30 = 2 * 60 / (30 - 0))) :=
  ⟨by norm_num, getWpm_characterization 2 0 30 (by norm_num)⟩

/-- Claim C5, counterexample: all words of `textC5` are within
`MAX_LENGTH_PER_LINE = 50`, yet the first produced line (a 50-character word
plus the appended trailing space) has length 51. -/
theorem wrap_width_counterexample :
    ((splitOnSpace textC5).all (fun w => decide (w.length ≤ MAX_LENGTH_PER_LINE))) = true ∧
    (wrap textC5).map List.length = [51, 1] := by
  constructor <;> decide

/-- Claim C9, counterexample: the claim says no event other than accepting or
backspacing a whitespace character changes `words`; but `Tab` on a finished
session resets `words` from 2 to 0. -/
theorem tab_resets_words :
    (handleKeyEvent data1 0 9 appDoneW KeyCode.tab).map App.words = some 0 ∧
    appDoneW.words = 2 :=
  ⟨rfl, rfl⟩

/-! ### Line wrapper: round-trip (C6) -/


/-- Join word/line lists with single spaces. -/
def spaceJoin : List (List Char) → List Char
  | [] => []
  | [w] => w
  | w :: w2 :: ws => w ++ ' ' :: spaceJoin (w2 :: ws)

/-- The suffix contributed by the words after the first. -/
def wordsTail : List (List Char) → List Char
  | [] => []
  | w :: ws => ' ' :: w ++ wordsTail ws

theorem spaceJoin_cons_cons (a b : List Char) (ws : List (List Char)) :
    spaceJoin (a :: b :: ws) = a ++ ' ' :: spaceJoin (b :: ws) := rfl

theorem spaceJoin_cons (w : List Char) (ws : List (List Char)) :
    spaceJoin (w :: ws) = w ++ wordsTail ws := by
  induction ws generalizing w with
  | nil => simp [spaceJoin, wordsTail]
  | cons x xs ih => simp [spaceJoin_cons_cons, wordsTail, ih]

theorem splitOnSpace_ne_nil (cs : List Char) : splitOnSpace cs ≠ [] := by
  cases cs with
  | nil => simp [splitOnSpace]
  | cons c cs =>
    by_cases hc : c = ' '
    · simp [splitOnSpace, hc]
    · simp only [splitOnSpace, if_neg hc]
      cases splitOnSpace cs <;> simp

theorem spaceJoin_splitOnSpace (cs : List Char) : spaceJoin (splitOnSpace cs) = cs := by
  induction cs with
  | nil => rfl
  | cons c cs ih =>
    obtain ⟨w, ws, hw⟩ := List.exists_cons_of_ne_nil (splitOnSpace_ne_nil cs)
    by_cases hc : c = ' '
    · subst hc
      simp only [splitOnSpace, if_pos rfl, hw]
      rw [hw] at ih
      show ([] : List Char) ++ ' ' :: spaceJoin (w :: ws) = ' ' :: cs
      rw [List.nil_append, ih]
    · simp only [splitOnSpace, if_neg hc, hw]
      rw [hw] at ih
      cases ws with
      | nil =>
        show c :: w = c :: cs
        simp only [spaceJoin] at ih
        rw [ih]
      | cons x xs =>
        rw [spaceJoin_cons_cons, ← ih, spaceJoin_cons_cons]
        simp

theorem pushWordRev_ne_nil : ∀ (rev : List (List Char)) (w : List Char),
    pushWordRev rev w ≠ []
  | [], w => by simp [pushWordRev]
  | l :: rest, w => by
    simp only [pushWordRev]
    split <;> simp

theorem spaceJoin_append_single (ys : List (List Char)) (w : List Char) (h : ys ≠ []) :
    spaceJoin (ys ++ [w]) = spaceJoin ys ++ ' ' :: w := by
  induction ys with
  | nil => exact absurd rfl h
  | cons y ys ih =>
    cases ys with
    | nil => rfl
    | cons z zs =>
      have e1 : (y :: z :: zs) ++ [w] = y :: z :: (zs ++ [w]) := by simp
      rw [e1, spaceJoin_cons_cons, spaceJoin_cons_cons]
      have e2 : z :: (zs ++ [w]) = (z :: zs) ++ [w] := by simp
      rw [e2, ih (by simp)]
      simp [List.append_assoc]

theorem spaceJoin_append_merge (xs : List (List Char)) (a b : List Char) :
    spaceJoin (xs ++ [a ++ b]) = spaceJoin (xs ++ [a]) ++ b := by
  induction xs with
  | nil => simp [spaceJoin]
  | cons x xs ih =>
    cases xs with
    | nil => simp [spaceJoin_cons_cons, spaceJoin, List.append_assoc]
    | cons z zs =>
      have e1 : (x :: z :: zs) ++ [a ++ b] = x :: z :: (zs ++ [a ++ b]) := by simp
      have e2 : (x :: z :: zs) ++ [a] = x :: z :: (zs ++ [a]) := by simp
      rw [e1, e2, spaceJoin_cons_cons, spaceJoin_cons_cons]
      have e3 : z :: (zs ++ [a ++ b]) = (z :: zs) ++ [a ++ b] := by simp
      have e4 : z :: (zs ++ [a]) = (z :: zs) ++ [a] := by simp
      rw [e3, e4, ih]
      simp [List.append_assoc]

theorem pushWordRev_spaceJoin : ∀ (rev : List (List Char)) (w : List Char), rev ≠ [] →
    spaceJoin (pushWordRev rev w).reverse = spaceJoin rev.reverse ++ ' ' :: w
  | [], w, h => absurd rfl h
  | l :: rest, w, _ => by
    simp only [pushWordRev]
    split
    · rw [List.reverse_cons]
      exact spaceJoin_append_single _ w (by simp)
    · rw [List.reverse_cons, List.reverse_cons]
      exact spaceJoin_append_merge rest.reverse l (' ' :: w)

theorem foldl_pushWordRev_spaceJoin (ws : List (List Char)) (acc : List (List Char))
    (h : acc ≠ []) :
    spaceJoin ((ws.foldl pushWordRev acc).reverse) = spaceJoin acc.reverse ++ wordsTail ws := by
  induction ws generalizing acc with
  | nil => simp [wordsTail]
  | cons w ws ih =>
    rw [List.foldl_cons, ih _ (pushWordRev_ne_nil acc w), pushWordRev_spaceJoin acc w h]
    simp [wordsTail, List.append_assoc]

theorem flatten_appendTrailing (ls : List (List Char)) :
    (appendTrailing ls).flatten = spaceJoin ls := by
  induction ls with
  | nil => rfl
  | cons l ls ih =>
    cases ls with
    | nil => simp [appendTrailing, spaceJoin]
    | cons l2 rest =>
      show ((l ++ [' ']) :: appendTrailing (l2 :: rest)).flatten = _
      rw [List.flatten_cons, ih, spaceJoin_cons_cons]
      simp

/-- Claim C6: concatenating all wrapped lines (the non-last ones carrying
their appended trailing space) reproduces the input text exactly. -/
theorem wrap_flatten (text : List Char) : (wrap text).flatten = text := by
  unfold wrap
  rw [flatten_appendTrailing]
  obtain ⟨w, ws, hw⟩ := List.exists_cons_of_ne_nil (splitOnSpace_ne_nil text)
  rw [hw, List.foldl_cons]
  rw [show pushWordRev [] w = [w] from rfl]
  rw [foldl_pushWordRev_spaceJoin ws [w] (by simp)]
  show spaceJoin [w] ++ wordsTail ws = text
  show w ++ wordsTail ws = text
  rw [← spaceJoin_cons w ws, ← hw, spaceJoin_splitOnSpace]

/-! ### Line wrapper: width bounds (C5 amended) -/


theorem pushWordRev_length {acc : List (List Char)} {w : List Char}
    (hw : w.length ≤ MAX_LENGTH_PER_LINE)
    (hacc : ∀ l ∈ acc, l.length ≤ MAX_LENGTH_PER_LINE) :
    ∀ l ∈ pushWordRev acc w, l.length ≤ MAX_LENGTH_PER_LINE := by
  intro l hl
  cases acc with
  | nil =>
    simp [pushWordRev] at hl
    subst hl
    exact hw
  | cons a rest =>
    simp only [pushWordRev] at hl
    split at hl
    · rcases List.mem_cons.mp hl with h1 | h2
      · subst h1; exact hw
      · exact hacc l h2
    · rcases List.mem_cons.mp hl with h1 | h2
      · subst h1
        have ha := hacc a (by simp)
        simp only [List.length_append, List.length_cons]
        omega
    -- the guard gives a.length + 1 + w.length ≤ MAX_LENGTH_PER_LINE
      · exact hacc l (by simp [h2])
  
theorem foldl_pushWordRev_length {ws acc : List (List Char)}
    (hws : ∀ w ∈ ws, w.length ≤ MAX_LENGTH_PER_LINE)
    (hacc : ∀ l ∈ acc, l.length ≤ MAX_LENGTH_PER_LINE) :
    ∀ l ∈ ws.foldl pushWordRev acc, l.length ≤ MAX_LENGTH_PER_LINE := by
  induction ws generalizing acc with
  | nil => simpa using hacc
  | cons w ws ih =>
    rw [List.foldl_cons]
    exact ih (fun x hx => hws x (by simp [hx]))
      (pushWordRev_length (hws w (by simp)) hacc)

theorem appendTrailing_length {ls : List (List Char)} {n : Nat}
    (h : ∀ l ∈ ls, l.length ≤ n) :
    ∀ l ∈ appendTrailing ls, l.length ≤ n + 1 := by
  induction ls with
  | nil => simp [appendTrailing]
  | cons l ls ih =>
    cases ls with
    | nil =>
      intro x hx
      have hx' : x = l := by simpa [appendTrailing] using hx
      rw [hx']
      have := h l (by simp)
      omega
    | cons l2 rest =>
      intro x hx
      rw [show appendTrailing (l :: l2 :: rest) = (l ++ [' ']) :: appendTrailing (l2 :: rest)
        from rfl] at hx
      rcases List.mem_cons.mp hx with h1 | h2
      · subst h1
        have := h l (by simp)
        simp only [List.length_append, List.length_cons, List.length_nil]
        omega
      · exact ih (fun y hy => h y (by simp [hy])) x h2

theorem appendTrailing_ne_nil (l : List Char) (ls : List (List Char)) :
    appendTrailing (l :: ls) ≠ [] := by
  cases ls <;> simp [appendTrailing]

theorem appendTrailing_getLast? (ls : List (List Char)) :
    (appendTrailing ls).getLast? = ls.getLast? := by
  induction ls with
  | nil => rfl
  | cons l ls ih =>
    cases ls with
    | nil => rfl
    | cons l2 rest =>
      show ((l ++ [' ']) :: appendTrailing (l2 :: rest)).getLast? = _
      obtain ⟨y, ys, hys⟩ := List.exists_cons_of_ne_nil (appendTrailing_ne_nil l2 rest)
      rw [hys, List.getLast?_cons_cons, ← hys, ih, List.getLast?_cons_cons]

theorem mem_of_getLast?_eq {α : Type} {l : List α} {a : α} (h : l.getLast? = some a) :
    a ∈ l := by
  induction l with
  | nil => simp at h
  | cons x xs ih =>
    cases xs with
    | nil => simp at h; subst h; simp
    | cons y ys =>
      rw [List.getLast?_cons_cons] at h
      exact List.mem_cons_of_mem x (ih h)

/-- Claim C5 amended: when every word of the input is at most
`MAX_LENGTH_PER_LINE` characters, every produced line is at most
`MAX_LENGTH_PER_LINE` characters before the trailing space is appended;
hence after the trailing-space pass every line has length at most
`MAX_LENGTH_PER_LINE + 1` and the last line at most `MAX_LENGTH_PER_LINE`. -/
theorem wrap_line_length (text : List Char)
    (h : ∀ w ∈ splitOnSpace text, w.length ≤ MAX_LENGTH_PER_LINE) :
    (∀ l ∈ wrap text, l.length ≤ MAX_LENGTH_PER_LINE + 1) ∧
    (∀ l, (wrap text).getLast? = some l → l.length ≤ MAX_LENGTH_PER_LINE) := by
  have hall : ∀ l ∈ ((splitOnSpace text).foldl pushWordRev []).reverse,
      l.length ≤ MAX_LENGTH_PER_LINE := by
    intro l hl
    exact foldl_pushWordRev_length h (by simp) l (List.mem_reverse.mp hl)
  constructor
  · intro l hl
    exact appendTrailing_length hall l hl
  · intro l hl
    rw [wrap, appendTrailing_getLast?] at hl
    exact hall l (mem_of_getLast?_eq hl)

/-- Witness for `wrap_line_length`. -/
def textW : List Char := ['a', 'b', ' ', 'c']

theorem wrap_line_length_witness :
    (∀ w ∈ splitOnSpace textW, w.length ≤ MAX_LENGTH_PER_LINE) ∧
    ((∀ l ∈ wrap textW, l.length ≤ MAX_LENGTH_PER_LINE + 1) ∧
      (∀ l, (wrap textW).getLast? = some l → l.length ≤ MAX_LENGTH_PER_LINE)) :=
  ⟨by decide, wrap_line_length textW (by decide)⟩

/-! ### Quote selection bounds (C7) and group navigation (C10) -/


/-- Claim C7: every selected quote lies strictly within the group bounds. -/
theorem selectQuote_bounds (data : EnglishData) (gidx choice : Nat)
    (group : Nat × Nat) (q : Quote)
    (hg : data.groups.get? gidx = some group)
    (hq : selectQuote data gidx choice = some q) :
    group.1 < q.length ∧ q.length < group.2 := by
  unfold selectQuote at hq
  rw [hg] at hq
  have hmem : q ∈ validQuotes data group := List.get?_mem hq
  unfold validQuotes at hmem
  have := List.mem_filter.mp hmem
  simpa using this.2

theorem selectQuote_bounds_witness :
    data1.groups.get? 0 = some (0, 100) ∧
    selectQuote data1 0 0 = some q1 ∧
    (0 < q1.length ∧ q1.length < 100) :=
  ⟨rfl, rfl, selectQuote_bounds data1 0 0 (0, 100) q1 rfl rfl⟩

/-- Everything `new_quote` does to the session: it only replaces `groups`,
`selected_group`, `sentence_source` and `sentence`. -/
theorem newQuote_eq {data : EnglishData} {choice : Nat} {app app' : App}
    (h : newQuote data choice app = some app') :
    ∃ picked,
      selectQuote data (clampGroup data app.selected_group) choice = some picked ∧
      app' = { app with
        groups := data.groups
        selected_group := clampGroup data app.selected_group
        sentence_source := picked.source
        sentence := wrap picked.text } := by
  unfold newQuote at h
  cases hq : selectQuote data (clampGroup data app.selected_group) choice with
  | none => rw [hq] at h; exact Option.noConfusion h
  | some picked =>
    rw [hq] at h
    exact ⟨picked, rfl, (Option.some.inj h).symm⟩

theorem clampGroup_of_le {data : EnglishData} {g : Nat} (h : g ≤ data.groups.length) :
    clampGroup data g = g := by
  unfold clampGroup
  rw [if_neg (by omega)]

/-- Claim C10: in the idle state, `Left` and `Right` move `selected_group`
one step with wrap-around. -/
theorem group_nav_wraps (data : EnglishData) (choice now : Nat) (app app' : App)
    (hidle : app.typing = [] ∧ app.current_line = 0)
    (hg : app.groups = data.groups)
    (hsel : app.selected_group < data.groups.length) :
    (handleKeyEvent data choice now app KeyCode.left = some app' →
      app'.selected_group =
        if app.selected_group = 0 then data.groups.length - 1
        else app.selected_group - 1) ∧
    (handleKeyEvent data choice now app KeyCode.right = some app' →
      app'.selected_group =
        if app.selected_group + 1 ≥ data.groups.length then 0
        else app.selected_group + 1) := by
  obtain ⟨ht, hc⟩ := hidle
  constructor
  · intro h
    simp only [handleKeyEvent, ht, hc] at h
    rw [if_neg (by simp)] at h
    obtain ⟨picked, hpick, happ⟩ := newQuote_eq h
    rw [happ]
    show clampGroup data
      (if app.selected_group = 0 then app.groups.length - 1 else app.selected_group - 1) = _
    rw [hg]
    split <;> rw [clampGroup_of_le (by omega)]
  · intro h
    simp only [handleKeyEvent, ht, hc] at h
    rw [if_neg (by simp)] at h
    obtain ⟨picked, hpick, happ⟩ := newQuote_eq h
    rw [happ]
    show clampGroup data
      (if app.selected_group + 1 ≥ app.groups.length then 0 else app.selected_group + 1) = _
    rw [hg]
    split <;> rw [clampGroup_of_le (by omega)]

def appNav : App := { initApp 0 with groups := [(0, 100), (100, 200)] }

def appNav' : App :=
  { appNav with selected_group := 1, sentence_source := ['s', '2'], sentence := [['c', 'd']] }

theorem group_nav_wraps_witness :
    (appNav.typing = [] ∧ appNav.current_line = 0) ∧
    appNav.groups = data1.groups ∧
    appNav.selected_group < data1.groups.length ∧
    ((handleKeyEvent data1 0 0 appNav KeyCode.left = some appNav' →
      appNav'.selected_group =
        if appNav.selected_group = 0 then data1.groups.length - 1
        else appNav.selected_group - 1) ∧
    (handleKeyEvent data1 0 0 appNav KeyCode.right = some appNav' →
      appNav'.selected_group =
        if appNav.selected_group + 1 ≥ data1.groups.length then 0
        else appNav.selected_group + 1)) :=
  ⟨⟨rfl, rfl⟩, rfl, by decide,
    group_nav_wraps data1 0 0 appNav appNav' ⟨rfl, rfl⟩ rfl (by decide)⟩

/-! ### Committed-lines invariant (C8) -/


/-- The invariant `committed.len() == current_line` (`typed` is `committed`). -/
def TypedInv (app : App) : Prop := app.typed.length = app.current_line

theorem pushChar_typedInv {now : Nat} {app : App} {part : List Char} {c : Char}
    (h : app.typed.length = app.current_line) :
    (pushChar now app part c).typed.length = (pushChar now app part c).current_line := by
  simp only [pushChar]
  split
  · split <;> simp [h]
  · simpa using h

theorem charStepCore_typedInv {now : Nat} {app : App} {c : Char} {app' : App}
    (hstep : charStepCore now app c = some app')
    (h : app.typed.length = app.current_line) :
    app'.typed.length = app'.current_line := by
  cases hpart : app.sentence.get? app.current_line with
  | none =>
    simp only [charStepCore, hpart] at hstep
    exact Option.noConfusion hstep
  | some part =>
    simp only [charStepCore, hpart] at hstep
    split at hstep
    · obtain rfl := (Option.some.inj hstep).symm
      exact h
    · split at hstep
      · split at hstep
        · obtain rfl := (Option.some.inj hstep).symm
          exact h
        · obtain rfl := (Option.some.inj hstep).symm
          exact pushChar_typedInv (by simpa using h)
      · split at hstep
        · obtain rfl := (Option.some.inj hstep).symm
          exact h
        · obtain rfl := (Option.some.inj hstep).symm
          exact pushChar_typedInv h

theorem charStep_typedInv {now : Nat} {app : App} {c : Char} {app' : App}
    (hstep : charStep now app c = some app') (h : TypedInv app) : TypedInv app' := by
  unfold charStep at hstep
  by_cases hidle : app.typing.length = 0 ∧ app.current_line = 0
  · rw [if_pos hidle] at hstep
    exact charStepCore_typedInv hstep h
  · rw [if_neg hidle] at hstep
    exact charStepCore_typedInv hstep h

/-- Claim C8: `typed.len() == current_line` holds initially and is preserved
by every key event and every new-quote request. -/
theorem typed_matches_current_line (data : EnglishData) (choice now : Nat)
    (app app' : App) (code : KeyCode) (h : TypedInv app) :
    TypedInv (initApp now) ∧
    (newQuote data choice app = some app' → TypedInv app') ∧
    (handleKeyEvent data choice now app code = some app' → TypedInv app') := by
  refine ⟨rfl, ?_, ?_⟩
  · intro hq
    obtain ⟨picked, -, rfl⟩ := newQuote_eq hq
    exact h
  · intro hs
    cases code with
    | esc =>
      simp only [handleKeyEvent] at hs
      obtain rfl := (Option.some.inj hs).symm
      exact h
    | left =>
      simp only [handleKeyEvent] at hs
      split at hs
      · obtain rfl := (Option.some.inj hs).symm
        exact h
      · obtain ⟨picked, -, rfl⟩ := newQuote_eq hs
        exact h
    | right =>
      simp only [handleKeyEvent] at hs
      split at hs
      · obtain rfl := (Option.some.inj hs).symm
        exact h
      · obtain ⟨picked, -, rfl⟩ := newQuote_eq hs
        exact h
    | tab =>
      simp only [handleKeyEvent] at hs
      split at hs
      · obtain ⟨picked, -, rfl⟩ := newQuote_eq hs
        exact h
      · split at hs
        · obtain ⟨picked, -, rfl⟩ := newQuote_eq hs
          exact rfl
        · obtain rfl := (Option.some.inj hs).symm
          exact h
    | char c => exact charStep_typedInv hs h
    | backspace =>
      simp only [handleKeyEvent] at hs
      cases hlast : app.typing.getLast? with
      | none =>
        rw [hlast] at hs
        obtain rfl := (Option.some.inj hs).symm
        exact h
      | some ch =>
        rw [hlast] at hs
        obtain rfl := (Option.some.inj hs).symm
        exact h
    | other =>
      simp only [handleKeyEvent] at hs
      obtain rfl := (Option.some.inj hs).symm
      exact h

def appEsc : App := { initApp 3 with exit := true }

theorem typed_matches_current_line_witness :
    TypedInv (initApp 3) ∧
    (newQuote data1 0 (initApp 3) = some appEsc → TypedInv appEsc) ∧
    (handleKeyEvent data1 0 3 (initApp 3) KeyCode.esc = some appEsc → TypedInv appEsc) :=
  typed_matches_current_line data1 0 3 (initApp 3) appEsc KeyCode.esc rfl

/-! ### Words counter transitions (C9 amended) -/


/-- Modelled from the amended claim C9: the value of the `words` counter
after an event. Accepting a whitespace character (a whitespace keystroke
when the expected character is a space) increments `words` by one; a
`Backspace` that removes a whitespace character decrements it by one,
floored at zero; every other event leaves it unchanged, except the `Tab`
restart of a finished session, which resets it to zero. -/
def wordsAfterSpec (app : App) (code : KeyCode) : Nat :=
  match code with
  | .char c =>
    match app.sentence.get? app.current_line with
    | none => app.words
    | some part =>
      if c.isWhitespace ∧ part.get? app.typing.length = some ' ' then app.words + 1
      else app.words
  | .backspace =>
    match app.typing.getLast? with
    | none => app.words
    | some ch => if ch.isWhitespace then app.words - 1 else app.words
  | .tab =>
    if app.typing.length = 0 ∧ app.current_line = 0 then app.words
    else if app.done.isSome then 0
    else app.words
  | _ => app.words

theorem pushChar_words (now : Nat) (app : App) (part : List Char) (c : Char) :
    (pushChar now app part c).words = app.words := by
  simp only [pushChar]
  split
  · split <;> rfl
  · rfl

theorem charStepCore_words {now : Nat} {app : App} {c : Char} {app' : App} {part : List Char}
    (hpart : app.sentence.get? app.current_line = some part)
    (hstep : charStepCore now app c = some app') :
    app'.words =
      if c.isWhitespace ∧ part.get? app.typing.length = some ' ' then app.words + 1
      else app.words := by
  simp only [charStepCore, hpart] at hstep
  split at hstep
  next hcond =>
    obtain ⟨hws, hne⟩ := hcond
    obtain rfl := (Option.some.inj hstep).symm
    rw [if_neg (fun hcontra => hne hcontra.2)]
  next hcond =>
    split at hstep
    next hws =>
      have heq : part.get? app.typing.length = some ' ' := by
        by_contra hne
        exact hcond ⟨hws, hne⟩
      split at hstep
      · obtain rfl := (Option.some.inj hstep).symm
        rw [if_pos ⟨hws, heq⟩]
      · obtain rfl := (Option.some.inj hstep).symm
        rw [pushChar_words, if_pos ⟨hws, heq⟩]
    next hws =>
      split at hstep
      · obtain rfl := (Option.some.inj hstep).symm
        rw [if_neg (fun hcontra => hws hcontra.1)]
      · obtain rfl := (Option.some.inj hstep).symm
        rw [pushChar_words, if_neg (fun hcontra => hws hcontra.1)]

theorem charStep_words {now : Nat} {app : App} {c : Char} {app' : App}
    (hstep : charStep now app c = some app') :
    app'.words = wordsAfterSpec app (KeyCode.char c) := by
  unfold charStep at hstep
  cases hpart : app.sentence.get? app.current_line with
  | none =>
    exfalso
    by_cases hidle : app.typing.length = 0 ∧ app.current_line = 0
    · rw [if_pos hidle] at hstep
      simp only [charStepCore] at hstep
      rw [show ({ app with start := now } : App).sentence.get?
          ({ app with start := now } : App).current_line = none from hpart] at hstep
      exact Option.noConfusion hstep
    · rw [if_neg hidle] at hstep
      simp only [charStepCore, hpart] at hstep
      exact Option.noConfusion hstep
  | some part =>
    have hres : app'.words =
        if c.isWhitespace ∧ part.get? app.typing.length = some ' ' then app.words + 1
        else app.words := by
      by_cases hidle : app.typing.length = 0 ∧ app.current_line = 0
      · rw [if_pos hidle] at hstep
        exact @charStepCore_words now { app with start := now } c app' part hpart hstep
      · rw [if_neg hidle] at hstep
        exact charStepCore_words hpart hstep
    rw [hres]
    simp only [wordsAfterSpec, hpart]

/-- Claim C9 amended: how each event changes `words`. -/
theorem words_transition (data : EnglishData) (choice now : Nat) (app : App)
    (code : KeyCode) (app' : App)
    (h : handleKeyEvent data choice now app code = some app') :
    app'.words = wordsAfterSpec app code := by
  cases code with
  | esc =>
    simp only [handleKeyEvent] at h
    obtain rfl := (Option.some.inj h).symm
    rfl
  | left =>
    simp only [handleKeyEvent] at h
    split at h
    · obtain rfl := (Option.some.inj h).symm
      rfl
    · obtain ⟨picked, -, rfl⟩ := newQuote_eq h
      rfl
  | right =>
    simp only [handleKeyEvent] at h
    split at h
    · obtain rfl := (Option.some.inj h).symm
      rfl
    · obtain ⟨picked, -, rfl⟩ := newQuote_eq h
      rfl
  | tab =>
    simp only [handleKeyEvent] at h
    split at h
    next hidle =>
      obtain ⟨picked, -, rfl⟩ := newQuote_eq h
      simp only [wordsAfterSpec]
      rw [if_pos hidle]
    next hidle =>
      split at h
      next hdone =>
        obtain ⟨picked, -, rfl⟩ := newQuote_eq h
        simp only [wordsAfterSpec]
        rw [if_neg hidle, if_pos hdone]
      next hdone =>
        obtain rfl := (Option.some.inj h).symm
        simp only [wordsAfterSpec]
        rw [if_neg hidle, if_neg hdone]
  | char c => exact charStep_words h
  | backspace =>
    simp only [handleKeyEvent] at h
    cases hlast : app.typing.getLast? with
    | none =>
      rw [hlast] at h
      obtain rfl := (Option.some.inj h).symm
      simp [wordsAfterSpec, hlast]
    | some ch =>
      rw [hlast] at h
      obtain rfl := (Option.some.inj h).symm
      simp [wordsAfterSpec, hlast]
  | other =>
    simp only [handleKeyEvent] at h
    obtain rfl := (Option.some.inj h).symm
    rfl

def appB : App := { initApp 0 with typing := [' '], words := 1, sentence := [['a', ' ', 'b']] }

theorem words_transition_witness :
    handleKeyEvent data1 0 0 appB KeyCode.backspace =
      some { appB with typing := ([] : List Char), words := 0 } ∧
    ({ appB with typing := ([] : List Char), words := 0 } : App).words =
      wordsAfterSpec appB KeyCode.backspace :=
  ⟨rfl, words_transition data1 0 0 appB KeyCode.backspace _ rfl⟩

end WpmRust
